import Mathlib

/-!
Verification of the Gondolin host network mediation layer.

This development shallowly embeds the framing protocol of
`src/host/src/exec.ts` (`FrameReader`, the 4-byte big-endian length
prefix framing used by `sendNext`) and models, from the written design
document, the parts of the policy engine, HTTP mediator, flow
classifier, and TCP reassembly whose implementation files are not part
of the checked-in sources (only their tests, documentation and callers
are).  Bytes are represented as natural numbers; byte strings as
`List Nat`; text as `List Char`.
-/

namespace Gondolin

/-! ## Framing protocol (`src/host/src/exec.ts`)

`MAX_FRAME`, `FrameReader.push` and the length-prefix framing are
translated from `src/host/src/exec.ts` lines 4 and 166-191, and the
header construction in `sendNext` (lines 246-248).
-/

/-- `MAX_FRAME = 4 * 1024 * 1024` from `src/host/src/exec.ts` line 4. -/
def MAX_FRAME : Nat := 4 * 1024 * 1024

/-- State of a `FrameReader`: the pending byte buffer and the declared
length of the frame currently being read (if its header has been
consumed), mirroring the two private fields of the class. -/
structure FrameReader where
  buffer : List Nat
  expectedLength : Option Nat
deriving DecidableEq

/-- `Buffer.readUInt32BE(0)`: big-endian 32-bit read of the first four
bytes of a byte list. -/
def readUInt32BE (l : List Nat) : Nat :=
  match l with
  | b0 :: b1 :: b2 :: b3 :: _ => ((b0 * 256 + b1) * 256 + b2) * 256 + b3
  | _ => 0

/-- The `while (true)` loop body of `FrameReader.push`: repeatedly
consume a 4-byte header and then the announced payload, returning the
stalled reader state together with the frames handed to `onFrame`, or
the `Frame too large` error thrown when a header announces more than
`MAX_FRAME` bytes. -/
def frameLoop (buffer : List Nat) (expected : Option Nat) :
    Except String (FrameReader × List (List Nat)) :=
  match expected with
  | none =>
    if _h : buffer.length < 4 then
      .ok (⟨buffer, none⟩, [])
    else
      let len := readUInt32BE buffer
      if len > MAX_FRAME then
        .error "Frame too large"
      else
        frameLoop (buffer.drop 4) (some len)
  | some len =>
    if _h : buffer.length < len then
      .ok (⟨buffer, some len⟩, [])
    else
      match frameLoop (buffer.drop len) none with
      | .error e => .error e
      | .ok (st, fs) => .ok (st, buffer.take len :: fs)
termination_by 2 * buffer.length + (match expected with | none => 1 | some _ => 2)
decreasing_by
  · simp only [List.length_drop]
    omega
  · simp only [List.length_drop]
    omega

/-- `FrameReader.push(chunk, onFrame)`: append the chunk to the buffer
and run the frame loop. -/
def FrameReader.push (st : FrameReader) (chunk : List Nat) :
    Except String (FrameReader × List (List Nat)) :=
  frameLoop (st.buffer ++ chunk) st.expectedLength

/-- A freshly constructed `FrameReader` (empty buffer, no pending
header). -/
def FrameReader.init : FrameReader := ⟨[], none⟩

/-- Feed a sequence of chunks to a `FrameReader` one `push` at a time,
collecting all frames delivered to the callback in order. -/
def pushMany (st : FrameReader) (chunks : List (List Nat)) :
    Except String (FrameReader × List (List Nat)) :=
  match chunks with
  | [] => .ok (st, [])
  | c :: cs =>
    match FrameReader.push st c with
    | .error e => .error e
    | .ok (st1, fs1) =>
      match pushMany st1 cs with
      | .error e => .error e
      | .ok (st2, fs2) => .ok (st2, fs1 ++ fs2)

/-- Big-endian 4-byte encoding of a 32-bit length, as produced by
`header.writeUInt32BE(payload.length, 0)`. -/
def u32be (n : Nat) : List Nat :=
  [n / 2 ^ 24 % 256, n / 2 ^ 16 % 256, n / 2 ^ 8 % 256, n % 256]

/-- The framing used on the virtio/exec socket: a 4-byte big-endian
length prefix followed by the payload, as built in `sendNext`
(`src/host/src/exec.ts` lines 246-248) and exercised by the
`encodeFrame` round-trip test. -/
def encodeFrame (payload : List Nat) : List Nat :=
  u32be payload.length ++ payload

theorem readUInt32BE_append (l extra : List Nat) (h : 4 ≤ l.length) :
    readUInt32BE (l ++ extra) = readUInt32BE l := by
  match l with
  | b0 :: b1 :: b2 :: b3 :: rest => rfl
  | [] => simp at h
  | [b0] => simp at h
  | [b0, b1] => simp at h
  | [b0, b1, b2] => simp at h

theorem readUInt32BE_u32be (n : Nat) (rest : List Nat) (h : n < 2 ^ 32) :
    readUInt32BE (u32be n ++ rest) = n := by
  simp only [u32be, List.cons_append, List.nil_append, readUInt32BE]
  omega

/-- A reader state is stalled when running the loop on it makes no
progress: this is exactly the shape of every state `frameLoop`
returns. -/
def Stalled (st : FrameReader) : Prop :=
  frameLoop st.buffer st.expectedLength = .ok (st, [])

theorem frameLoop_stalled (buffer : List Nat) (expected : Option Nat) :
    ∀ st fs, frameLoop buffer expected = .ok (st, fs) → Stalled st := by
  induction buffer, expected using frameLoop.induct with
  | case1 buffer hlt =>
    intro st fs h
    rw [frameLoop.eq_def] at h
    simp only [dif_pos hlt, Except.ok.injEq, Prod.mk.injEq] at h
    obtain ⟨h1, h2⟩ := h
    subst h1
    unfold Stalled
    rw [frameLoop.eq_def]
    simp [hlt]
  | case2 buffer hlt len hgt =>
    intro st fs h
    replace hgt : readUInt32BE buffer > MAX_FRAME := hgt
    rw [frameLoop.eq_def] at h
    simp only [dif_neg hlt, if_pos hgt] at h
    exact Except.noConfusion h
  | case3 buffer hlt len hgt ih =>
    intro st fs h
    replace hgt : ¬ readUInt32BE buffer > MAX_FRAME := hgt
    rw [frameLoop.eq_def] at h
    simp only [dif_neg hlt, if_neg hgt] at h
    exact ih st fs h
  | case4 buffer len hlt =>
    intro st fs h
    rw [frameLoop.eq_def] at h
    simp only [dif_pos hlt, Except.ok.injEq, Prod.mk.injEq] at h
    obtain ⟨h1, h2⟩ := h
    subst h1
    unfold Stalled
    rw [frameLoop.eq_def]
    simp [hlt]
  | case5 buffer len hlt e herr ih =>
    intro st fs h
    rw [frameLoop.eq_def] at h
    simp only [dif_neg hlt, herr] at h
    exact Except.noConfusion h
  | case6 buffer len hlt st0 fs0 hok ih =>
    intro st fs h
    rw [frameLoop.eq_def] at h
    simp only [dif_neg hlt, hok, Except.ok.injEq, Prod.mk.injEq] at h
    obtain ⟨h1, h2⟩ := h
    subst h1
    exact ih st0 fs0 hok

theorem frameLoop_error_extend (buffer : List Nat) (expected : Option Nat) :
    ∀ e, frameLoop buffer expected = .error e →
    ∀ extra, frameLoop (buffer ++ extra) expected = .error e := by
  induction buffer, expected using frameLoop.induct with
  | case1 buffer hlt =>
    intro e h
    rw [frameLoop.eq_def] at h
    simp only [dif_pos hlt] at h
    exact Except.noConfusion h
  | case2 buffer hlt len hgt =>
    intro e h extra
    replace hgt : readUInt32BE buffer > MAX_FRAME := hgt
    rw [frameLoop.eq_def] at h
    simp only [dif_neg hlt, if_pos hgt, Except.error.injEq] at h
    subst h
    have hlen : ¬ (buffer ++ extra).length < 4 := by
      simp only [List.length_append]
      omega
    have hread : readUInt32BE (buffer ++ extra) = readUInt32BE buffer :=
      readUInt32BE_append buffer extra (by omega)
    rw [frameLoop.eq_def]
    simp only [dif_neg hlen, hread, if_pos hgt]
  | case3 buffer hlt len hgt ih =>
    intro e h extra
    replace hgt : ¬ readUInt32BE buffer > MAX_FRAME := hgt
    rw [frameLoop.eq_def] at h
    simp only [dif_neg hlt, if_neg hgt] at h
    have hlen : ¬ (buffer ++ extra).length < 4 := by
      simp only [List.length_append]
      omega
    have hread : readUInt32BE (buffer ++ extra) = readUInt32BE buffer :=
      readUInt32BE_append buffer extra (by omega)
    rw [frameLoop.eq_def]
    simp only [dif_neg hlen, hread, if_neg hgt]
    rw [List.drop_append_of_le_length (by omega)]
    exact ih e h extra
  | case4 buffer len hlt =>
    intro e h
    rw [frameLoop.eq_def] at h
    simp only [dif_pos hlt] at h
    exact Except.noConfusion h
  | case5 buffer len hlt e0 herr ih =>
    intro e h extra
    rw [frameLoop.eq_def] at h
    simp only [dif_neg hlt, herr, Except.error.injEq] at h
    subst h
    have hlen : ¬ (buffer ++ extra).length < len := by
      simp only [List.length_append]
      omega
    rw [frameLoop.eq_def]
    simp only [dif_neg hlen]
    rw [List.drop_append_of_le_length (by omega)]
    rw [ih e0 herr extra]
  | case6 buffer len hlt st0 fs0 hok ih =>
    intro e h
    rw [frameLoop.eq_def] at h
    simp only [dif_neg hlt, hok] at h
    exact Except.noConfusion h

theorem frameLoop_extend (buffer : List Nat) (expected : Option Nat) :
    ∀ st fs, frameLoop buffer expected = .ok (st, fs) →
    ∀ extra, frameLoop (buffer ++ extra) expected =
      match frameLoop (st.buffer ++ extra) st.expectedLength with
      | .error e => .error e
      | .ok (st2, fs2) => .ok (st2, fs ++ fs2) := by
  induction buffer, expected using frameLoop.induct with
  | case1 buffer hlt =>
    intro st fs h extra
    rw [frameLoop.eq_def] at h
    simp only [dif_pos hlt, Except.ok.injEq, Prod.mk.injEq] at h
    obtain ⟨h1, h2⟩ := h
    subst h1
    subst h2
    cases hres : frameLoop (buffer ++ extra) none with
    | error e => simp [hres]
    | ok v =>
      obtain ⟨st2, fs2⟩ := v
      simp [hres]
  | case2 buffer hlt len hgt =>
    intro st fs h
    replace hgt : readUInt32BE buffer > MAX_FRAME := hgt
    rw [frameLoop.eq_def] at h
    simp only [dif_neg hlt, if_pos hgt] at h
    exact Except.noConfusion h
  | case3 buffer hlt len hgt ih =>
    intro st fs h extra
    replace hgt : ¬ readUInt32BE buffer > MAX_FRAME := hgt
    rw [frameLoop.eq_def] at h
    simp only [dif_neg hlt, if_neg hgt] at h
    have hlen : ¬ (buffer ++ extra).length < 4 := by
      simp only [List.length_append]
      omega
    have hread : readUInt32BE (buffer ++ extra) = readUInt32BE buffer :=
      readUInt32BE_append buffer extra (by omega)
    rw [frameLoop.eq_def]
    simp only [dif_neg hlen, hread, if_neg hgt]
    rw [List.drop_append_of_le_length (by omega)]
    exact ih st fs h extra
  | case4 buffer len hlt =>
    intro st fs h extra
    rw [frameLoop.eq_def] at h
    simp only [dif_pos hlt, Except.ok.injEq, Prod.mk.injEq] at h
    obtain ⟨h1, h2⟩ := h
    subst h1
    subst h2
    cases hres : frameLoop (buffer ++ extra) (some len) with
    | error e => simp [hres]
    | ok v =>
      obtain ⟨st2, fs2⟩ := v
      simp [hres]
  | case5 buffer len hlt e0 herr ih =>
    intro st fs h
    rw [frameLoop.eq_def] at h
    simp only [dif_neg hlt, herr] at h
    exact Except.noConfusion h
  | case6 buffer len hlt st0 fs0 hok ih =>
    intro st fs h extra
    rw [frameLoop.eq_def] at h
    simp only [dif_neg hlt, hok, Except.ok.injEq, Prod.mk.injEq] at h
    obtain ⟨h1, h2⟩ := h
    subst h1
    subst h2
    have hlen : ¬ (buffer ++ extra).length < len := by
      simp only [List.length_append]
      omega
    rw [frameLoop.eq_def]
    simp only [dif_neg hlen]
    rw [List.drop_append_of_le_length (by omega)]
    rw [List.take_append_of_le_length (by omega)]
    rw [ih st0 fs0 hok extra]
    cases hres : frameLoop (st0.buffer ++ extra) st0.expectedLength with
    | error e => simp [hres]
    | ok v =>
      obtain ⟨st2, fs2⟩ := v
      simp [hres]

theorem frameLoop_stream (msgs : List (List Nat))
    (hm : ∀ m ∈ msgs, m.length ≤ MAX_FRAME) :
    frameLoop (msgs.map encodeFrame).flatten none = .ok (FrameReader.init, msgs) := by
  induction msgs with
  | nil =>
    rw [frameLoop.eq_def]
    simp [FrameReader.init]
  | cons m ms ih =>
    have hlenm : m.length ≤ MAX_FRAME := hm m (List.mem_cons_self m ms)
    have hsmall : m.length < 2 ^ 32 := by
      have : MAX_FRAME < 2 ^ 32 := by decide
      omega
    have hstream :
        ((m :: ms).map encodeFrame).flatten =
          u32be m.length ++ (m ++ (ms.map encodeFrame).flatten) := by
      simp [encodeFrame, List.append_assoc]
    rw [hstream, frameLoop.eq_def]
    have hlen4 : ¬ (u32be m.length ++ (m ++ (ms.map encodeFrame).flatten)).length < 4 := by
      simp [u32be]
    simp only [dif_neg hlen4]
    rw [readUInt32BE_u32be m.length _ hsmall]
    simp only [gt_iff_lt, not_lt.mpr hlenm, if_false]
    have hdrop4 :
        (u32be m.length ++ (m ++ (ms.map encodeFrame).flatten)).drop 4 =
          m ++ (ms.map encodeFrame).flatten := by
      simp [u32be]
    rw [hdrop4, frameLoop.eq_def]
    have hlenrest : ¬ (m ++ (ms.map encodeFrame).flatten).length < m.length := by
      simp only [List.length_append]
      omega
    simp only [dif_neg hlenrest]
    rw [List.take_left, List.drop_left]
    rw [ih (fun x hx => hm x (List.mem_cons_of_mem m hx))]

theorem init_stalled : Stalled FrameReader.init := by
  unfold Stalled FrameReader.init
  rw [frameLoop.eq_def]
  simp

theorem pushMany_of_frameLoop (chunks : List (List Nat)) :
    ∀ st : FrameReader, Stalled st →
    ∀ st2 fs, frameLoop (st.buffer ++ chunks.flatten) st.expectedLength = .ok (st2, fs) →
    pushMany st chunks = .ok (st2, fs) := by
  induction chunks with
  | nil =>
    intro st hst st2 fs h
    rw [List.flatten_nil, List.append_nil] at h
    rw [hst] at h
    simp only [Except.ok.injEq, Prod.mk.injEq] at h
    obtain ⟨h1, h2⟩ := h
    subst h1
    subst h2
    rfl
  | cons c cs ih =>
    intro st hst st2 fs h
    rw [List.flatten_cons, ← List.append_assoc] at h
    cases hpush : frameLoop (st.buffer ++ c) st.expectedLength with
    | error e =>
      rw [frameLoop_error_extend _ _ e hpush cs.flatten] at h
      exact absurd h (by simp)
    | ok v =>
      obtain ⟨st1, fs1⟩ := v
      have hst1 : Stalled st1 := frameLoop_stalled _ _ st1 fs1 hpush
      rw [frameLoop_extend _ _ st1 fs1 hpush cs.flatten] at h
      cases hrest : frameLoop (st1.buffer ++ cs.flatten) st1.expectedLength with
      | error e =>
        rw [hrest] at h
        exact absurd h (by simp)
      | ok w =>
        obtain ⟨st2', fs2⟩ := w
        rw [hrest] at h
        simp only [Except.ok.injEq, Prod.mk.injEq] at h
        obtain ⟨h1, h2⟩ := h
        subst h1
        subst h2
        have hmany : pushMany st1 cs = .ok (st2', fs2) := ih st1 hst1 st2' fs2 hrest
        unfold pushMany FrameReader.push
        rw [hpush]
        dsimp only
        rw [hmany]

theorem frameLoop_frames_le (buffer : List Nat) (expected : Option Nat) :
    (∀ l, expected = some l → l ≤ MAX_FRAME) →
    ∀ st fs, frameLoop buffer expected = .ok (st, fs) →
    (∀ l, st.expectedLength = some l → l ≤ MAX_FRAME) ∧
      ∀ f ∈ fs, f.length ≤ MAX_FRAME := by
  induction buffer, expected using frameLoop.induct with
  | case1 buffer hlt =>
    intro hexp st fs h
    rw [frameLoop.eq_def] at h
    simp only [dif_pos hlt, Except.ok.injEq, Prod.mk.injEq] at h
    obtain ⟨h1, h2⟩ := h
    subst h1
    subst h2
    exact ⟨by simp, by simp⟩
  | case2 buffer hlt len hgt =>
    intro hexp st fs h
    replace hgt : readUInt32BE buffer > MAX_FRAME := hgt
    rw [frameLoop.eq_def] at h
    simp only [dif_neg hlt, if_pos hgt] at h
    exact Except.noConfusion h
  | case3 buffer hlt len hgt ih =>
    intro hexp st fs h
    replace hgt : ¬ readUInt32BE buffer > MAX_FRAME := hgt
    rw [frameLoop.eq_def] at h
    simp only [dif_neg hlt, if_neg hgt] at h
    exact ih (fun l hl => by cases hl; omega) st fs h
  | case4 buffer len hlt =>
    intro hexp st fs h
    rw [frameLoop.eq_def] at h
    simp only [dif_pos hlt, Except.ok.injEq, Prod.mk.injEq] at h
    obtain ⟨h1, h2⟩ := h
    subst h1
    subst h2
    refine ⟨fun l hl => ?_, by simp⟩
    simp only [Option.some.injEq] at hl
    subst hl
    exact hexp len rfl
  | case5 buffer len hlt e herr ih =>
    intro hexp st fs h
    rw [frameLoop.eq_def] at h
    simp only [dif_neg hlt, herr] at h
    exact Except.noConfusion h
  | case6 buffer len hlt st0 fs0 hok ih =>
    intro hexp st fs h
    rw [frameLoop.eq_def] at h
    simp only [dif_neg hlt, hok, Except.ok.injEq, Prod.mk.injEq] at h
    obtain ⟨h1, h2⟩ := h
    subst h1
    subst h2
    obtain ⟨hst, hfs⟩ := ih (by simp) st0 fs0 hok
    refine ⟨hst, fun f hf => ?_⟩
    rcases List.mem_cons.mp hf with hf | hf
    · subst hf
      have : (buffer.take len).length ≤ len := by
        simp [List.length_take]
      have hle : len ≤ MAX_FRAME := hexp len rfl
      omega
    · exact hfs f hf

theorem pushMany_frames_le (chunks : List (List Nat)) :
    ∀ st : FrameReader, (∀ l, st.expectedLength = some l → l ≤ MAX_FRAME) →
    ∀ st2 fs, pushMany st chunks = .ok (st2, fs) →
    ∀ f ∈ fs, f.length ≤ MAX_FRAME := by
  induction chunks with
  | nil =>
    intro st hst st2 fs h
    simp only [pushMany, Except.ok.injEq, Prod.mk.injEq] at h
    obtain ⟨h1, h2⟩ := h
    subst h2
    simp
  | cons c cs ih =>
    intro st hst st2 fs h
    unfold pushMany at h
    cases hpush : FrameReader.push st c with
    | error e =>
      rw [hpush] at h
      exact absurd h (by simp)
    | ok v =>
      obtain ⟨st1, fs1⟩ := v
      rw [hpush] at h
      dsimp only at h
      obtain ⟨hst1, hfs1⟩ := frameLoop_frames_le _ _ hst st1 fs1 hpush
      cases hrest : pushMany st1 cs with
      | error e =>
        rw [hrest] at h
        exact absurd h (by simp)
      | ok w =>
        obtain ⟨st2', fs2⟩ := w
        rw [hrest] at h
        simp only [Except.ok.injEq, Prod.mk.injEq] at h
        obtain ⟨h1, h2⟩ := h
        subst h2
        intro f hf
        rcases List.mem_append.mp hf with hf | hf
        · exact hfs1 f hf
        · exact ih st1 hst1 st2' fs2 hrest f hf

/-- C8: the framing protocol preserves message boundaries.
`encodeFrame` prefixes the payload with its length as four big-endian
bytes, the payload is recovered by dropping the prefix, the prefix
decodes back to the payload length, and for every partition of a framed
byte stream into arbitrary chunks, pushing the chunks through a fresh
`FrameReader` emits exactly the original sequence of frame payloads in
order. -/
theorem encodeFrame_roundtrip_and_boundaries
    (p : List Nat) (msgs chunks : List (List Nat))
    (hp : p.length ≤ MAX_FRAME)
    (hm : ∀ m ∈ msgs, m.length ≤ MAX_FRAME)
    (hchunks : chunks.flatten = (msgs.map encodeFrame).flatten) :
    encodeFrame p = u32be p.length ++ p ∧
    (encodeFrame p).drop 4 = p ∧
    readUInt32BE (encodeFrame p) = p.length ∧
    pushMany FrameReader.init chunks = .ok (FrameReader.init, msgs) := by
  have hsmall : p.length < 2 ^ 32 := by
    have : MAX_FRAME < 2 ^ 32 := by decide
    omega
  refine ⟨rfl, ?_, ?_, ?_⟩
  · simp [encodeFrame, u32be]
  · exact readUInt32BE_u32be p.length p hsmall
  · refine pushMany_of_frameLoop chunks FrameReader.init init_stalled FrameReader.init msgs ?_
    show frameLoop ([] ++ chunks.flatten) none = _
    rw [List.nil_append, hchunks]
    exact frameLoop_stream msgs hm

/-- Witness for C8 at a concrete payload, message list, and a chunk
partition that splits frames across chunk boundaries. -/
theorem encodeFrame_roundtrip_and_boundaries_witness :
    encodeFrame [7, 8] = u32be ([7, 8] : List Nat).length ++ [7, 8] ∧
    (encodeFrame [7, 8]).drop 4 = [7, 8] ∧
    readUInt32BE (encodeFrame [7, 8]) = ([7, 8] : List Nat).length ∧
    pushMany FrameReader.init [[0, 0, 0, 2, 7], [8, 0, 0], [0, 1, 9]] =
      .ok (FrameReader.init, [[7, 8], [9]]) :=
  encodeFrame_roundtrip_and_boundaries [7, 8] [[7, 8], [9]]
    [[0, 0, 0, 2, 7], [8, 0, 0], [0, 1, 9]]
    (by decide) (by decide) (by decide)

/-- C9: a fresh `FrameReader` never delivers a frame longer than
`MAX_FRAME` to the callback, and a chunk whose 4-byte length prefix
declares more than `MAX_FRAME` bytes makes `push` fail with
`Frame too large` before any callback for that frame. -/
theorem frameReader_enforces_max_frame
    (chunks : List (List Nat)) (st2 : FrameReader) (fs : List (List Nat))
    (h : pushMany FrameReader.init chunks = .ok (st2, fs)) :
    (∀ f ∈ fs, f.length ≤ MAX_FRAME) ∧
    (∀ n rest, MAX_FRAME < n → n < 2 ^ 32 →
      FrameReader.push FrameReader.init (u32be n ++ rest) = .error "Frame too large") := by
  constructor
  · refine pushMany_frames_le chunks FrameReader.init ?_ st2 fs h
    intro l hl
    exact absurd hl (by simp [FrameReader.init])
  · intro n rest hn hlt
    show frameLoop ([] ++ (u32be n ++ rest)) none = _
    rw [List.nil_append, frameLoop.eq_def]
    have h4 : ¬ (u32be n ++ rest).length < 4 := by simp [u32be]
    simp only [dif_neg h4]
    rw [readUInt32BE_u32be n rest hlt]
    simp only [gt_iff_lt, if_pos hn]

/-- Witness for C9: a well-formed one-frame stream is accepted with a
frame within bounds, and the oversized-header rejection is available at
any concrete header. -/
theorem frameReader_enforces_max_frame_witness :
    (∀ f ∈ [[5]], f.length ≤ MAX_FRAME) ∧
    (∀ n rest, MAX_FRAME < n → n < 2 ^ 32 →
      FrameReader.push FrameReader.init (u32be n ++ rest) = .error "Frame too large") := by
  have hstream : frameLoop (FrameReader.init.buffer ++
      ([[0, 0, 0, 1, 5]] : List (List Nat)).flatten) FrameReader.init.expectedLength =
      .ok (FrameReader.init, [[5]]) := by
    have hs := frameLoop_stream [[5]] (by decide)
    have harg : (([[5]] : List (List Nat)).map encodeFrame).flatten =
        ([0, 0, 0, 1, 5] : List Nat) := by decide
    rw [harg] at hs
    exact hs
  exact frameReader_enforces_max_frame [[0, 0, 0, 1, 5]] FrameReader.init [[5]]
    (pushMany_of_frameLoop [[0, 0, 0, 1, 5]] FrameReader.init init_stalled
      FrameReader.init [[5]] hstream)

/-! ## Policy engine: host allowlist matching

The implementation file (`src/http-hooks.ts`, imported by
`src/host/test/http-hooks.test.ts`) is not among the checked-in
sources, so the matcher is modelled from the design document, §4.11:
a pattern matches literally (case-insensitive) or with `*` components
acting as a single DNS label wildcard; embedded wildcards are
supported; hostnames are compared in lowercase with a trailing dot
stripped. -/

/-- Modelled from the spec: ASCII lowercasing used for case-insensitive
hostname comparison. -/
def lowerChar (c : Char) : Char :=
  if 'A' ≤ c ∧ c ≤ 'Z' then Char.ofNat (c.toNat + 32) else c

/-- Modelled from the spec: lowercase an entire hostname or pattern. -/
def lowerSeq (s : List Char) : List Char :=
  s.map lowerChar

/-- Modelled from the spec: strip one trailing dot from a hostname. -/
def stripTrailingDot (s : List Char) : List Char :=
  if s.getLast? = some '.' then s.dropLast else s

/-- Modelled from the spec: split a hostname into its DNS labels at
every dot. -/
def splitLabels (s : List Char) : List (List Char) :=
  match s with
  | [] => [[]]
  | c :: rest =>
    if c = '.' then [] :: splitLabels rest
    else
      match splitLabels rest with
      | [] => [[c]]
      | l :: ls => (c :: l) :: ls

/-- Labels of a hostname after normalization (lowercase, trailing dot
stripped). -/
def hostLabels (host : List Char) : List (List Char) :=
  splitLabels (stripTrailingDot (lowerSeq host))

/-- Labels of an allowlist pattern after lowercasing. -/
def patternLabels (pattern : List Char) : List (List Char) :=
  splitLabels (lowerSeq pattern)

/-- Modelled from the spec: a pattern label matches a host label when it
is the single-label wildcard `*` or is literally equal. -/
def labelMatches (p h : List Char) : Bool :=
  decide (p = ['*'] ∨ p = h)

/-- Modelled from the spec (§4.11): a pattern matches a hostname when
their label lists have the same length and match position by position,
so `*` consumes exactly one DNS label and embedded wildcards such as
`api.*.net` are supported. -/
def hostMatchesPattern (pattern host : List Char) : Bool :=
  decide ((patternLabels pattern).length = (hostLabels host).length) &&
    ((patternLabels pattern).zip (hostLabels host)).all fun ph => labelMatches ph.1 ph.2

/-- Modelled from the spec: a hostname is admitted by an allowlist when
some pattern matches it; a hostname matching no pattern is rejected. -/
def isAllowedHost (patterns : List (List Char)) (host : List Char) : Bool :=
  patterns.any fun p => hostMatchesPattern p host

/-- The matching semantics as the specification phrases it, used to
state the correctness of `hostMatchesPattern`. -/
def MatchesSpec (pattern host : List Char) : Prop :=
  List.Forall₂ (fun p h => p = ['*'] ∨ p = h) (patternLabels pattern) (hostLabels host)

/-! ## Policy engine: secrets, internal ranges, `createHttpHooks`

Modelled from the spec (§3 `SecretBinding`, §4.11, §6 configuration
surface) and constrained by `src/host/test/http-hooks.test.ts`. -/

/-- Modelled from the spec: a secret binding has a name, the real
value, and the set of host patterns the secret may be sent to.  The
placeholder exposed to the guest is derived from the name (§6: "the
name becomes the placeholder"). -/
structure SecretBinding where
  name : List Char
  value : List Char
  hosts : List (List Char)
deriving DecidableEq

/-- Modelled from the spec: an IPv4 address as four dotted-quad
components. -/
structure Ipv4 where
  a : Nat
  b : Nat
  c : Nat
  d : Nat
deriving DecidableEq

/-- Modelled from the spec (§4.11): internal ranges are RFC1918,
loopback, link-local, CGNAT, IPv4 multicast, IPv4 broadcast and
"this network". -/
def isInternalIp (ip : Ipv4) : Bool :=
  decide (ip.a = 0 ∨ ip.a = 10 ∨ ip.a = 127 ∨
    (ip.a = 172 ∧ 16 ≤ ip.b ∧ ip.b ≤ 31) ∨
    (ip.a = 192 ∧ ip.b = 168) ∨
    (ip.a = 169 ∧ ip.b = 254) ∨
    (ip.a = 100 ∧ 64 ≤ ip.b ∧ ip.b ≤ 127) ∨
    (224 ≤ ip.a ∧ ip.a ≤ 239) ∨
    (ip.a = 255 ∧ ip.b = 255 ∧ ip.c = 255 ∧ ip.d = 255))

/-- Modelled from the spec (§6): options accepted by
`createHttpHooks`; `blockInternalRanges` is optional and defaults to
true. -/
structure HttpHooksOptions where
  allowedHosts : List (List Char)
  secrets : List SecretBinding
  blockInternalRanges : Option Bool
deriving DecidableEq

/-- The parts of the value returned by `createHttpHooks` that the
claims are about: the merged allowlist and the effective
internal-ranges flag. -/
structure CreatedHooks where
  allowedHosts : List (List Char)
  blockInternalRanges : Bool
deriving DecidableEq

/-- Modelled from the spec and the test file: `createHttpHooks` merges
every host pattern of every secret binding into the returned
`allowedHosts`, and resolves `blockInternalRanges` to its default
(true) when unset. -/
def createHttpHooks (opts : HttpHooksOptions) : CreatedHooks :=
  { allowedHosts := opts.allowedHosts ++ (opts.secrets.map SecretBinding.hosts).flatten,
    blockInternalRanges := opts.blockInternalRanges.getD true }

/-- Modelled from the spec (§4.11 decision rule): the `isAllowed` hook
admits a request when the hostname matches the allowlist and, when
internal-range blocking is on, the resolved IP is not internal. -/
def isAllowed (hooks : CreatedHooks) (hostname : List Char) (ip : Ipv4) : Bool :=
  isAllowedHost hooks.allowedHosts hostname &&
    !(hooks.blockInternalRanges && isInternalIp ip)

/-- Shorthand turning a string literal into the character list the
policy definitions work on. -/
def cs (s : String) : List Char :=
  s.data

theorem hostMatchesPattern_iff (pattern host : List Char) :
    hostMatchesPattern pattern host = true ↔ MatchesSpec pattern host := by
  unfold hostMatchesPattern MatchesSpec
  rw [List.forall₂_iff_zip, Bool.and_eq_true, decide_eq_true_iff, List.all_eq_true]
  constructor
  · rintro ⟨hlen, hall⟩
    refine ⟨hlen, ?_⟩
    intro a b hab
    simpa [labelMatches] using hall (a, b) hab
  · rintro ⟨hlen, hall⟩
    refine ⟨hlen, ?_⟩
    intro x hx
    obtain ⟨a, b⟩ := x
    simpa [labelMatches] using hall hx

/-- C2: the allowlist check accepts a hostname iff some configured
pattern matches it in the label-wise sense of the specification:
literal case-insensitive equality per label, `*` matching exactly one
DNS label (also embedded as in `api.*.net`), hostnames lowercased.
The concrete conjuncts exercise the literal, suffix-wildcard,
embedded-wildcard, case-insensitivity, no-match, and
one-label-only-wildcard cases. -/
theorem allowlist_matching_correct :
    (∀ (patterns : List (List Char)) (host : List Char),
      isAllowedHost patterns host = true ↔ ∃ p ∈ patterns, MatchesSpec p host) ∧
    (∀ (hooks : CreatedHooks) (hostname : List Char) (ip : Ipv4),
      isInternalIp ip = false →
      (isAllowed hooks hostname ip = true ↔
        ∃ p ∈ hooks.allowedHosts, MatchesSpec p hostname)) ∧
    (isAllowedHost [cs "example.com", cs "*.example.org", cs "api.*.net"]
        (cs "example.com") = true ∧
      isAllowedHost [cs "example.com", cs "*.example.org", cs "api.*.net"]
        (cs "Foo.Example.Org") = true ∧
      isAllowedHost [cs "example.com", cs "*.example.org", cs "api.*.net"]
        (cs "api.foo.net") = true ∧
      isAllowedHost [cs "example.com", cs "*.example.org", cs "api.*.net"]
        (cs "nope.com") = false ∧
      isAllowedHost [cs "*.example.org"] (cs "a.b.example.org") = false) := by
  have hmain : ∀ (patterns : List (List Char)) (host : List Char),
      isAllowedHost patterns host = true ↔ ∃ p ∈ patterns, MatchesSpec p host := by
    intro patterns host
    unfold isAllowedHost
    rw [List.any_eq_true]
    constructor
    · rintro ⟨p, hp, hmatch⟩
      exact ⟨p, hp, (hostMatchesPattern_iff p host).mp hmatch⟩
    · rintro ⟨p, hp, hmatch⟩
      exact ⟨p, hp, (hostMatchesPattern_iff p host).mpr hmatch⟩
  refine ⟨hmain, ?_, by decide, by decide, by decide, by decide, by decide⟩
  intro hooks hostname ip hip
  unfold isAllowed
  rw [hip]
  simp only [Bool.and_false, Bool.not_false, Bool.and_true]
  exact hmain hooks.allowedHosts hostname

/-- Witness for C2 at the test's concrete pattern and a public IP. -/
theorem allowlist_matching_correct_witness :
    isInternalIp ⟨93, 184, 216, 34⟩ = false ∧
    (isAllowed ⟨[cs "example.com"], true⟩ (cs "example.com") ⟨93, 184, 216, 34⟩ = true ↔
      ∃ p ∈ [cs "example.com"], MatchesSpec p (cs "example.com")) :=
  ⟨by decide,
    allowlist_matching_correct.2.1 ⟨[cs "example.com"], true⟩ (cs "example.com")
      ⟨93, 184, 216, 34⟩ (by decide)⟩

/-- C4: for an allowlisted host with an internal resolved IP, the
`isAllowed` check rejects when `blockInternalRanges` is unset (default
true) and accepts when it is explicitly false. -/
theorem internal_ranges_blocked
    (opts : HttpHooksOptions) (hostname : List Char) (ip : Ipv4)
    (hhost : isAllowedHost (createHttpHooks opts).allowedHosts hostname = true)
    (hip : isInternalIp ip = true) :
    (opts.blockInternalRanges = none →
      isAllowed (createHttpHooks opts) hostname ip = false) ∧
    (opts.blockInternalRanges = some false →
      isAllowed (createHttpHooks opts) hostname ip = true) := by
  constructor
  · intro hnone
    simp [isAllowed, createHttpHooks, hnone, hip]
  · intro hfalse
    simp only [isAllowed, hip]
    simp [createHttpHooks, hfalse] at hhost ⊢
    exact hhost

/-- Witness for C4 at the test's configuration (`example.com`
allowlisted, resolved IP `10.0.0.1`). -/
theorem internal_ranges_blocked_witness :
    isAllowed (createHttpHooks ⟨[cs "example.com"], [], none⟩)
      (cs "example.com") ⟨10, 0, 0, 1⟩ = false ∧
    isAllowed (createHttpHooks ⟨[cs "example.com"], [], some false⟩)
      (cs "example.com") ⟨10, 0, 0, 1⟩ = true :=
  ⟨(internal_ranges_blocked ⟨[cs "example.com"], [], none⟩ (cs "example.com")
      ⟨10, 0, 0, 1⟩ (by decide) (by decide)).1 rfl,
    (internal_ranges_blocked ⟨[cs "example.com"], [], some false⟩ (cs "example.com")
      ⟨10, 0, 0, 1⟩ (by decide) (by decide)).2 rfl⟩

/-- C10: every host pattern of every registered secret binding is
merged into the `allowedHosts` returned by `createHttpHooks`, so
registering a secret for a host implicitly allowlists that host. -/
theorem secret_hosts_merged_into_allowlist
    (opts : HttpHooksOptions) (b : SecretBinding) (h : List Char)
    (hb : b ∈ opts.secrets) (hh : h ∈ b.hosts) :
    h ∈ (createHttpHooks opts).allowedHosts := by
  simp only [createHttpHooks, List.mem_append]
  right
  rw [List.mem_flatten]
  exact ⟨b.hosts, List.mem_map_of_mem SecretBinding.hosts hb, hh⟩

/-- Witness for C10 at the test's configuration: a secret for
`example.com` with an empty `allowedHosts` option still allowlists
`example.com`. -/
theorem secret_hosts_merged_into_allowlist_witness :
    cs "example.com" ∈
      (createHttpHooks
        ⟨[], [⟨cs "API_KEY", cs "secret-value", [cs "example.com"]⟩], none⟩).allowedHosts :=
  secret_hosts_merged_into_allowlist
    ⟨[], [⟨cs "API_KEY", cs "secret-value", [cs "example.com"]⟩], none⟩
    ⟨cs "API_KEY", cs "secret-value", [cs "example.com"]⟩
    (cs "example.com") (by decide) (by decide)

/-! ## HTTP mediator: secret placeholder substitution

Modelled from the spec (§4.9 step 2): placeholders in request headers
are substituted with the secret value iff the destination host matches
the binding's host patterns; otherwise the request fails with
`PolicyBlocked(secret_on_disallowed_host)`
(`HttpRequestBlockedError`). -/

/-- `pat` occurs at the very start of `s`. -/
def hasLead (pat s : List Char) : Bool :=
  match pat, s with
  | [], _ => true
  | _ :: _, [] => false
  | p :: ps, c :: rest => decide (p = c) && hasLead ps rest

/-- `pat` occurs somewhere inside `s`. -/
def seqContains (pat s : List Char) : Bool :=
  match s with
  | [] => hasLead pat []
  | c :: rest => hasLead pat (c :: rest) || seqContains pat rest

/-- Replace every (leftmost, non-overlapping) occurrence of `pat` in
`s` by `repl`. -/
def seqReplace (pat repl s : List Char) : List Char :=
  match s with
  | [] => []
  | c :: rest =>
    if _h : pat ≠ [] ∧ hasLead pat (c :: rest) = true then
      repl ++ seqReplace pat repl ((c :: rest).drop pat.length)
    else
      c :: seqReplace pat repl rest
termination_by s.length
decreasing_by
  · have hpat : 1 ≤ pat.length := by
      cases hp : pat with
      | nil => exact absurd hp _h.1
      | cons x xs => simp
    simp only [List.length_drop, List.length_cons]
    omega
  · simp

/-- The blocked-request error thrown by the hooks
(`HttpRequestBlockedError` from `src/qemu-net`), carrying a stable
reason code. -/
structure HttpRequestBlockedError where
  reason : List Char
deriving DecidableEq

/-- The stable reason code for a secret placeholder sent toward a host
outside the binding's patterns. -/
def secretOnDisallowedHost : List Char :=
  cs "secret_on_disallowed_host"

/-- Modelled from the spec (§4.9 step 2): apply one secret binding to
the request headers.  If the destination host matches the binding's
patterns, every placeholder occurrence is substituted; otherwise a
present placeholder aborts the request with
`secret_on_disallowed_host`, and absent placeholders leave the request
untouched. -/
def applySecretToHeaders (b : SecretBinding) (host : List Char)
    (headers : List (List Char × List Char)) :
    Except HttpRequestBlockedError (List (List Char × List Char)) :=
  if isAllowedHost b.hosts host then
    .ok (headers.map fun kv => (kv.1, seqReplace b.name b.value kv.2))
  else if headers.any fun kv => seqContains b.name kv.2 then
    .error ⟨secretOnDisallowedHost⟩
  else
    .ok headers

/-- Apply all registered secret bindings in order (the `onRequest`
hook of `createHttpHooks`). -/
def applySecrets (bs : List SecretBinding) (host : List Char)
    (headers : List (List Char × List Char)) :
    Except HttpRequestBlockedError (List (List Char × List Char)) :=
  match bs with
  | [] => .ok headers
  | b :: rest =>
    match applySecretToHeaders b host headers with
    | .error e => .error e
    | .ok h2 => applySecrets rest host h2

/-- C1: with a registered secret binding, placeholder occurrences in
request headers are substituted by the real value iff the destination
host matches the binding's host patterns; when the host does not match
and a placeholder is present the request fails with
`secret_on_disallowed_host`; and toward a non-matching host the
headers pass through unchanged, so the real secret value is never
introduced into a request bound for a non-matching host. -/
theorem secret_substitution (b : SecretBinding) (host : List Char)
    (headers : List (List Char × List Char)) :
    (isAllowedHost b.hosts host = true →
      applySecrets [b] host headers =
        .ok (headers.map fun kv => (kv.1, seqReplace b.name b.value kv.2))) ∧
    (isAllowedHost b.hosts host = false →
      ((headers.any fun kv => seqContains b.name kv.2) = true →
        applySecrets [b] host headers = .error ⟨secretOnDisallowedHost⟩) ∧
      ∀ out, applySecrets [b] host headers = .ok out → out = headers) := by
  refine ⟨fun hmatch => ?_, fun hmatch => ⟨fun hocc => ?_, fun out hout => ?_⟩⟩
  · simp [applySecrets, applySecretToHeaders, hmatch]
  · simp [applySecrets, applySecretToHeaders, hmatch, hocc]
  · by_cases hocc : (headers.any fun kv => seqContains b.name kv.2) = true
    · simp [applySecrets, applySecretToHeaders, hmatch, hocc] at hout
    · simp only [applySecrets, applySecretToHeaders, hmatch, Bool.false_eq_true,
        if_false, hocc] at hout
      simp only [Bool.eq_false_iff] at hocc
      simp only [hocc, if_false, Except.ok.injEq] at hout
      exact hout.symm

/-- Witness for C1 at the test's data: the binding `API_KEY ->
secret-value` for `example.com`, the header `authorization: Bearer
API_KEY`, substituted for `example.com` and rejected for
`example.org`. -/
theorem secret_substitution_witness :
    applySecrets [⟨cs "API_KEY", cs "secret-value", [cs "example.com"]⟩]
      (cs "example.com") [(cs "authorization", cs "Bearer API_KEY")] =
      .ok ([(cs "authorization", cs "Bearer API_KEY")].map fun kv =>
        (kv.1, seqReplace (cs "API_KEY") (cs "secret-value") kv.2)) ∧
    applySecrets [⟨cs "API_KEY", cs "secret-value", [cs "example.com"]⟩]
      (cs "example.org") [(cs "authorization", cs "Bearer API_KEY")] =
      .error ⟨secretOnDisallowedHost⟩ :=
  ⟨(secret_substitution ⟨cs "API_KEY", cs "secret-value", [cs "example.com"]⟩
      (cs "example.com") [(cs "authorization", cs "Bearer API_KEY")]).1 (by decide),
    ((secret_substitution ⟨cs "API_KEY", cs "secret-value", [cs "example.com"]⟩
      (cs "example.org") [(cs "authorization", cs "Bearer API_KEY")]).2
        (by decide)).1 (by decide)⟩

/-! ## Flow classifier

Modelled from the spec (§4.8): rule 1 classifies a TLS record header
as TLS, rule 2 classifies a well-known HTTP method token followed by a
space as HTTP — except CONNECT, which is Rejected — and anything else
is Rejected. -/

/-- The classification attached to a TCP flow. -/
inductive FlowClass where
  | Unknown
  | Http
  | Tls
  | Rejected
deriving DecidableEq

/-- The CONNECT method token. -/
def connectToken : List Char :=
  ['C', 'O', 'N', 'N', 'E', 'C', 'T']

/-- Modelled from the spec: the well-known HTTP method tokens the
classifier recognizes. -/
def knownMethods : List (List Char) :=
  [cs "GET", cs "HEAD", cs "POST", cs "PUT", cs "DELETE",
    cs "OPTIONS", cs "TRACE", cs "PATCH", connectToken]

/-- Modelled from the spec (rule 1): bytes 1..2 of a TLS record header
carry a protocol version of at least TLS 1.0 (`0x03 0x01`). -/
def tlsVersionOk (rest : List Char) : Bool :=
  match rest with
  | v1 :: v2 :: _ => decide (v1.toNat = 3 ∧ 1 ≤ v2.toNat)
  | _ => false

/-- Modelled from the spec (§4.8): classify the first bytes of a TCP
flow.  Rule 1: content type `0x16` with a plausible record version is
TLS.  Rule 2: a known method token followed by a space is HTTP, except
that a CONNECT verb is Rejected.  Rule 3: everything else is
Rejected. -/
def classify (bytes : List Char) : FlowClass :=
  if bytes = [] then FlowClass.Rejected
  else if (bytes.headD ' ').toNat = 22 ∧ tlsVersionOk (bytes.drop 1) = true then
    FlowClass.Tls
  else
    let method := bytes.takeWhile fun c => decide (c ≠ ' ')
    if method ∈ knownMethods ∧ (bytes.drop method.length).head? = some ' ' then
      if method = connectToken then FlowClass.Rejected else FlowClass.Http
    else FlowClass.Rejected

/-- C7: a flow whose initial bytes form a request line with the
CONNECT method is classified Rejected — never Http and never Tls — so
CONNECT is never admitted. -/
theorem connect_always_rejected (rest : List Char) :
    classify (connectToken ++ (' ' :: rest)) = FlowClass.Rejected := by
  rw [show connectToken ++ (' ' :: rest) =
    'C' :: 'O' :: 'N' :: 'N' :: 'E' :: 'C' :: 'T' :: ' ' :: rest from rfl]
  unfold classify
  rw [if_neg (by simp : ¬ ('C' :: 'O' :: 'N' :: 'N' :: 'E' :: 'C' :: 'T' :: ' ' :: rest
    = ([] : List Char)))]
  have htls : ¬ ((('C' :: 'O' :: 'N' :: 'N' :: 'E' :: 'C' :: 'T' :: ' ' :: rest).headD
      ' ').toNat = 22 ∧
      tlsVersionOk (('C' :: 'O' :: 'N' :: 'N' :: 'E' :: 'C' :: 'T' :: ' ' :: rest).drop 1)
        = true) := by
    intro hc
    have h1 : ('C').toNat = 22 := hc.1
    exact absurd h1 (by decide)
  rw [if_neg htls]
  have htake : List.takeWhile (fun c => decide (c ≠ ' '))
      ('C' :: 'O' :: 'N' :: 'N' :: 'E' :: 'C' :: 'T' :: ' ' :: rest) = connectToken := by
    simp [List.takeWhile, connectToken]
  simp only [htake]
  have hhead : (('C' :: 'O' :: 'N' :: 'N' :: 'E' :: 'C' :: 'T' :: ' ' :: rest).drop
      connectToken.length).head? = some ' ' := rfl
  rw [if_pos ⟨by decide, hhead⟩]
  simp

/-! ## HTTP mediator: blocked requests

Modelled from the spec (§4.9 step 3): on a blocked policy decision the
mediator synthesizes a local 403 response, keeps the guest connection
open for further requests, and opens no upstream connection. -/

/-- The policy decision attached to a request before egress. -/
inductive PolicyDecision where
  | allowed
  | blocked (reason : List Char)
deriving DecidableEq

/-- Observable side effects of mediating one request. -/
inductive MediatorEvent where
  | connectUpstream (host : List Char) (ip : Ipv4)
  | sendUpstream
  | respond (status : Nat)
deriving DecidableEq

/-- Result of mediating one request on a guest connection. -/
structure MediationOutcome where
  events : List MediatorEvent
  keepOpen : Bool
deriving DecidableEq

/-- Modelled from the spec (§4.9 steps 3-5): a blocked request yields
only a synthesized local 403 and keeps the connection open; an allowed
request connects upstream to the host-resolved IP, sends, and relays
the upstream status. -/
def mediateRequest (decision : PolicyDecision) (host : List Char)
    (resolver : List Char → Ipv4) (upstreamStatus : Nat) : MediationOutcome :=
  match decision with
  | .blocked _ =>
    { events := [.respond 403], keepOpen := true }
  | .allowed =>
    { events := [.connectUpstream host (resolver host), .sendUpstream,
        .respond upstreamStatus],
      keepOpen := true }

/-- C3: for every blocked request no upstream connection is opened;
the mediator synthesizes a local 403 and keeps the guest connection
open for further requests. -/
theorem blocked_request_no_upstream (reason host : List Char)
    (resolver : List Char → Ipv4) (upstreamStatus : Nat) :
    (∀ e ∈ (mediateRequest (.blocked reason) host resolver upstreamStatus).events,
      ∀ h ip, e ≠ .connectUpstream h ip) ∧
    (mediateRequest (.blocked reason) host resolver upstreamStatus).events =
      [.respond 403] ∧
    (mediateRequest (.blocked reason) host resolver upstreamStatus).keepOpen = true := by
  refine ⟨?_, rfl, rfl⟩
  intro e he h ip
  simp only [mediateRequest, List.mem_singleton] at he
  subst he
  exact fun hc => MediatorEvent.noConfusion hc

/-- Witness for C3 at a concrete blocked request. -/
theorem blocked_request_no_upstream_witness :
    (∀ e ∈ (mediateRequest (.blocked (cs "host_not_allowed")) (cs "evil.example.com")
        (fun _ => ⟨93, 184, 216, 34⟩) 200).events,
      ∀ h ip, e ≠ .connectUpstream h ip) ∧
    (mediateRequest (.blocked (cs "host_not_allowed")) (cs "evil.example.com")
        (fun _ => ⟨93, 184, 216, 34⟩) 200).events = [.respond 403] ∧
    (mediateRequest (.blocked (cs "host_not_allowed")) (cs "evil.example.com")
        (fun _ => ⟨93, 184, 216, 34⟩) 200).keepOpen = true :=
  blocked_request_no_upstream (cs "host_not_allowed") (cs "evil.example.com")
    (fun _ => ⟨93, 184, 216, 34⟩) 200

/-! ## DNS rebind protection

Modelled from the spec (§4.6, §8, design note on pinning): every TCP
connect re-resolves the Host header on the host side and the answer is
pinned for the flow's lifetime; the DNS answers previously returned to
the guest play no role in the upstream connect. -/

/-- The upstream-facing trace of one allowed TCP flow: the IP the host
connected to and the IP used for each mediated request on the flow. -/
structure FlowTrace where
  connectIp : Ipv4
  requestIps : List Ipv4
deriving DecidableEq

/-- Modelled from the spec: run one allowed flow.  At connect time the
Host header is re-resolved independently by the host resolver and the
answer is pinned; every request on the flow uses the pinned IP.  The
DNS answer the guest previously received is an input that the flow
never consults. -/
def runFlow (resolver : List Char → Ipv4) (hostHeader : List Char)
    (_guestDnsAnswer : Ipv4) (numRequests : Nat) : FlowTrace :=
  let pinned := resolver hostHeader
  { connectIp := pinned, requestIps := List.replicate numRequests pinned }

/-- C5: the upstream connect IP of an allowed flow is the host-side
re-resolution of the Host header, the guest-visible DNS answer has no
influence on it (runs with different guest answers coincide), and the
IP is pinned: every request on the flow uses the connect IP. -/
theorem rebind_protection (resolver : List Char → Ipv4) (hostHeader : List Char)
    (g1 g2 : Ipv4) (numRequests : Nat) :
    (runFlow resolver hostHeader g1 numRequests).connectIp = resolver hostHeader ∧
    runFlow resolver hostHeader g1 numRequests =
      runFlow resolver hostHeader g2 numRequests ∧
    ∀ ip ∈ (runFlow resolver hostHeader g1 numRequests).requestIps,
      ip = (runFlow resolver hostHeader g1 numRequests).connectIp := by
  refine ⟨rfl, rfl, ?_⟩
  intro ip hip
  simp only [runFlow] at hip ⊢
  exact List.eq_of_mem_replicate hip

/-- Witness for C5 at a concrete resolver and two different guest DNS
answers. -/
theorem rebind_protection_witness :
    (runFlow (fun _ => ⟨93, 184, 216, 34⟩) (cs "example.com") ⟨6, 6, 6, 6⟩ 2).connectIp =
      (fun _ => (⟨93, 184, 216, 34⟩ : Ipv4)) (cs "example.com") ∧
    runFlow (fun _ => ⟨93, 184, 216, 34⟩) (cs "example.com") ⟨6, 6, 6, 6⟩ 2 =
      runFlow (fun _ => ⟨93, 184, 216, 34⟩) (cs "example.com") ⟨7, 7, 7, 7⟩ 2 ∧
    ∀ ip ∈ (runFlow (fun _ => ⟨93, 184, 216, 34⟩) (cs "example.com")
        ⟨6, 6, 6, 6⟩ 2).requestIps,
      ip = (runFlow (fun _ => ⟨93, 184, 216, 34⟩) (cs "example.com")
        ⟨6, 6, 6, 6⟩ 2).connectIp :=
  rebind_protection (fun _ => ⟨93, 184, 216, 34⟩) (cs "example.com")
    ⟨6, 6, 6, 6⟩ ⟨7, 7, 7, 7⟩ 2

/-! ## TCP receive-side reassembly

Modelled from the spec (§4.7): out-of-order segments are buffered,
duplicates dropped, and bytes are delivered to the classifier and
mediator in strict sequence with no gaps.  A segment is a pair of a
stream offset and its bytes; the guest's sent stream `S` assigns each
offset its byte, and a segment is consistent when it carries exactly
the stream's bytes at its offsets. -/

/-- Receive-side reassembly state: the in-order bytes already
delivered upstream (to the classifier/mediator) and the buffered
out-of-order segments. -/
structure ReState where
  delivered : List Nat
  buffer : List (Nat × List Nat)
deriving DecidableEq

/-- Modelled from the spec: deliver every buffered segment that
overlaps the next expected byte, dropping segments that are entirely
duplicates of already-delivered data, until only out-of-order segments
remain. -/
def flush (delivered : List Nat) (buffer : List (Nat × List Nat)) : ReState :=
  match _hfind : buffer.find? (fun sd => decide (sd.1 ≤ delivered.length)) with
  | none => ⟨delivered, buffer⟩
  | some sd =>
    if delivered.length < sd.1 + sd.2.length then
      flush (delivered ++ sd.2.drop (delivered.length - sd.1)) (buffer.erase sd)
    else
      flush delivered (buffer.erase sd)
termination_by buffer.length
decreasing_by
  · have hmem := List.mem_of_find?_eq_some _hfind
    have h1 := List.length_erase_of_mem hmem
    have h2 := List.length_pos_of_mem hmem
    omega
  · have hmem := List.mem_of_find?_eq_some _hfind
    have h1 := List.length_erase_of_mem hmem
    have h2 := List.length_pos_of_mem hmem
    omega

theorem flush_eq_none (delivered : List Nat) (buffer : List (Nat × List Nat))
    (hfind : buffer.find? (fun sd => decide (sd.1 ≤ delivered.length)) = none) :
    flush delivered buffer = ⟨delivered, buffer⟩ := by
  rw [flush.eq_def]
  split
  next => rfl
  next sd2 heq =>
    rw [hfind] at heq
    exact Option.noConfusion heq

theorem flush_eq_deliver (delivered : List Nat) (buffer : List (Nat × List Nat))
    (sd : Nat × List Nat)
    (hfind : buffer.find? (fun sd => decide (sd.1 ≤ delivered.length)) = some sd)
    (hlt : delivered.length < sd.1 + sd.2.length) :
    flush delivered buffer =
      flush (delivered ++ sd.2.drop (delivered.length - sd.1)) (buffer.erase sd) := by
  rw [flush.eq_def]
  split
  next heq =>
    rw [hfind] at heq
    exact Option.noConfusion heq
  next sd2 heq =>
    rw [hfind] at heq
    injection heq with h
    subst h
    rw [if_pos hlt]

theorem flush_eq_skip (delivered : List Nat) (buffer : List (Nat × List Nat))
    (sd : Nat × List Nat)
    (hfind : buffer.find? (fun sd => decide (sd.1 ≤ delivered.length)) = some sd)
    (hge : ¬ delivered.length < sd.1 + sd.2.length) :
    flush delivered buffer = flush delivered (buffer.erase sd) := by
  rw [flush.eq_def]
  split
  next heq =>
    rw [hfind] at heq
    exact Option.noConfusion heq
  next sd2 heq =>
    rw [hfind] at heq
    injection heq with h
    subst h
    rw [if_neg hge]

/-- Accept one arriving segment: buffer it and flush whatever became
deliverable. -/
def tcpDeliver (st : ReState) (seg : Nat × List Nat) : ReState :=
  flush st.delivered (st.buffer ++ [seg])

/-- Process a whole arrival sequence of segments starting from the
fresh connection state. -/
def processSegments (segs : List (Nat × List Nat)) : ReState :=
  segs.foldl tcpDeliver ⟨[], []⟩

/-- A segment is consistent with the guest's sent stream `S` when it
carries exactly the bytes of `S` at its offsets. -/
abbrev SegConsistent (S : List Nat) (seg : Nat × List Nat) : Prop :=
  seg.2 = (S.drop seg.1).take seg.2.length ∧ seg.1 + seg.2.length ≤ S.length

theorem flush_spec (S : List Nat) (delivered : List Nat)
    (buffer : List (Nat × List Nat)) :
    delivered <+: S →
    (∀ seg ∈ buffer, SegConsistent S seg) →
    (flush delivered buffer).delivered <+: S ∧
    delivered <+: (flush delivered buffer).delivered ∧
    (∀ seg ∈ (flush delivered buffer).buffer, seg ∈ buffer) ∧
    (∀ seg ∈ (flush delivered buffer).buffer,
      ¬ seg.1 ≤ (flush delivered buffer).delivered.length) ∧
    (∀ seg ∈ buffer, seg ∈ (flush delivered buffer).buffer ∨
      seg.1 + seg.2.length ≤ (flush delivered buffer).delivered.length) := by
  induction delivered, buffer using flush.induct with
  | case1 delivered buffer hfind =>
    intro hpre hcons
    rw [flush_eq_none delivered buffer hfind]
    refine ⟨hpre, List.prefix_refl delivered, fun seg hseg => hseg, ?_, ?_⟩
    · intro seg hseg hle
      have := List.find?_eq_none.mp hfind seg hseg
      simp only [decide_eq_true_eq] at this
      exact this hle
    · intro seg hseg
      exact Or.inl hseg
  | case2 delivered buffer sd hfind hlt ih =>
    intro hpre hcons
    have hmem : sd ∈ buffer := List.mem_of_find?_eq_some hfind
    have hle : sd.1 ≤ delivered.length := by
      have := List.find?_some hfind
      simpa using this
    obtain ⟨hdata, hbound⟩ := hcons sd hmem
    -- the newly delivered bytes extend the prefix of S
    have htake : delivered = S.take delivered.length :=
      List.prefix_iff_eq_take.mp hpre
    have hnew : sd.2.drop (delivered.length - sd.1) =
        (S.drop delivered.length).take (sd.2.length - (delivered.length - sd.1)) := by
      conv_lhs => rw [hdata]
      rw [List.drop_take, List.drop_drop]
      congr 2
      omega
    have hext : delivered ++ sd.2.drop (delivered.length - sd.1) =
        S.take (sd.1 + sd.2.length) := by
      rw [hnew]
      nth_rewrite 1 [htake]
      rw [← List.take_add]
      congr 1
      omega
    have hpre' : delivered ++ sd.2.drop (delivered.length - sd.1) <+: S := by
      rw [hext]
      exact List.take_prefix _ _
    have hcons' : ∀ seg ∈ buffer.erase sd, SegConsistent S seg :=
      fun seg hseg => hcons seg (List.mem_of_mem_erase hseg)
    obtain ⟨ih1, ih2, ih3, ih4, ih5⟩ := ih hpre' hcons'
    rw [flush_eq_deliver delivered buffer sd hfind hlt]
    have hlen' : (delivered ++ sd.2.drop (delivered.length - sd.1)).length =
        sd.1 + sd.2.length := by
      rw [hext, List.length_take]
      omega
    refine ⟨ih1, ?_, ?_, ih4, ?_⟩
    · exact (List.prefix_append delivered _).trans ih2
    · intro seg hseg
      exact List.mem_of_mem_erase (ih3 seg hseg)
    · intro seg hseg
      by_cases hsd : seg = sd
      · subst hsd
        right
        have := ih2.length_le
        omega
      · rcases ih5 seg ((List.mem_erase_of_ne hsd).mpr hseg) with hin | habs
        · exact Or.inl hin
        · exact Or.inr habs
  | case3 delivered buffer sd hfind hge ih =>
    intro hpre hcons
    have hmem : sd ∈ buffer := List.mem_of_find?_eq_some hfind
    have hcons' : ∀ seg ∈ buffer.erase sd, SegConsistent S seg :=
      fun seg hseg => hcons seg (List.mem_of_mem_erase hseg)
    obtain ⟨ih1, ih2, ih3, ih4, ih5⟩ := ih hpre hcons'
    rw [flush_eq_skip delivered buffer sd hfind hge]
    refine ⟨ih1, ih2, ?_, ih4, ?_⟩
    · intro seg hseg
      exact List.mem_of_mem_erase (ih3 seg hseg)
    · intro seg hseg
      by_cases hsd : seg = sd
      · subst hsd
        right
        have := ih2.length_le
        omega
      · rcases ih5 seg ((List.mem_erase_of_ne hsd).mpr hseg) with hin | habs
        · exact Or.inl hin
        · exact Or.inr habs

theorem foldl_deliver_spec (S : List Nat) (segs : List (Nat × List Nat)) :
    ∀ st : ReState,
    st.delivered <+: S →
    (∀ seg ∈ st.buffer, SegConsistent S seg) →
    (∀ seg ∈ st.buffer, ¬ seg.1 ≤ st.delivered.length) →
    (∀ seg ∈ segs, SegConsistent S seg) →
    (segs.foldl tcpDeliver st).delivered <+: S ∧
    st.delivered <+: (segs.foldl tcpDeliver st).delivered ∧
    (∀ seg ∈ (segs.foldl tcpDeliver st).buffer,
      ¬ seg.1 ≤ (segs.foldl tcpDeliver st).delivered.length) ∧
    (∀ seg ∈ st.buffer, seg ∈ (segs.foldl tcpDeliver st).buffer ∨
      seg.1 + seg.2.length ≤ (segs.foldl tcpDeliver st).delivered.length) ∧
    (∀ seg ∈ segs, seg ∈ (segs.foldl tcpDeliver st).buffer ∨
      seg.1 + seg.2.length ≤ (segs.foldl tcpDeliver st).delivered.length) := by
  induction segs with
  | nil =>
    intro st hpre hcons hpost _hsegs
    refine ⟨hpre, List.prefix_refl _, hpost, fun seg hseg => Or.inl hseg, ?_⟩
    intro seg hseg
    exact absurd hseg (List.not_mem_nil seg)
  | cons seg0 rest ih =>
    intro st hpre hcons hpost hsegs
    have hcons1 : ∀ seg ∈ st.buffer ++ [seg0], SegConsistent S seg := by
      intro seg hseg
      rcases List.mem_append.mp hseg with hin | hin
      · exact hcons seg hin
      · rw [List.mem_singleton] at hin
        subst hin
        exact hsegs seg (List.mem_cons_self _ _)
    obtain ⟨f1, f2, f3, f4, f5⟩ :=
      flush_spec S st.delivered (st.buffer ++ [seg0]) hpre hcons1
    simp only [show flush st.delivered (st.buffer ++ [seg0]) = tcpDeliver st seg0
      from rfl] at f1 f2 f3 f4 f5
    have hstep : (seg0 :: rest).foldl tcpDeliver st =
        rest.foldl tcpDeliver (tcpDeliver st seg0) := rfl
    have hcons2 : ∀ seg ∈ (tcpDeliver st seg0).buffer, SegConsistent S seg := by
      intro seg hseg
      exact hcons1 seg (f3 seg hseg)
    obtain ⟨g1, g2, g3, g4, g5⟩ := ih (tcpDeliver st seg0) f1 hcons2 f4
      (fun seg hseg => hsegs seg (List.mem_cons_of_mem _ hseg))
    rw [hstep]
    have hmono : (tcpDeliver st seg0).delivered.length ≤
        (rest.foldl tcpDeliver (tcpDeliver st seg0)).delivered.length :=
      g2.length_le
    refine ⟨g1, f2.trans g2, g3, ?_, ?_⟩
    · intro seg hseg
      rcases f5 seg (List.mem_append_left _ hseg) with hin | habs
      · exact g4 seg hin
      · right
        omega
    · intro seg hseg
      rcases List.mem_cons.mp hseg with hin | hin
      · subst hin
        rcases f5 seg (List.mem_append_right _ (List.mem_singleton.mpr rfl)) with hin' | habs
        · exact g4 seg hin'
        · right
          omega
      · exact g5 seg hin

/-- C6: for every accepted TCP flow, the byte sequence delivered to
the classifier and mediator is exactly the byte sequence the guest
sent: whatever the arrival order and duplication of consistent
segments, the delivered bytes are always a prefix of the sent stream
(in order, without gaps or duplicates), and once the segments cover
the whole stream the delivered bytes equal the stream. -/
theorem tcp_reassembly_exact (S : List Nat) (segs : List (Nat × List Nat))
    (hcons : ∀ seg ∈ segs, SegConsistent S seg) :
    (processSegments segs).delivered <+: S ∧
    ((∀ i, i < S.length → ∃ seg ∈ segs, seg.1 ≤ i ∧ i < seg.1 + seg.2.length) →
      (processSegments segs).delivered = S) := by
  obtain ⟨m1, _m2, m3, _m4, m5⟩ := foldl_deliver_spec S segs ⟨[], []⟩
    (List.nil_prefix) (by simp) (by simp) hcons
  simp only [show List.foldl tcpDeliver ⟨[], []⟩ segs = processSegments segs
    from rfl] at m1 m3 m5
  refine ⟨m1, ?_⟩
  intro hcover
  have hle : (processSegments segs).delivered.length ≤ S.length := m1.length_le
  rcases Nat.lt_or_ge (processSegments segs).delivered.length S.length with hlt | hge
  · exfalso
    obtain ⟨seg, hseg, hoff, hcov⟩ := hcover (processSegments segs).delivered.length hlt
    rcases m5 seg hseg with hin | habs
    · exact (m3 seg hin) hoff
    · omega
  · exact m1.eq_of_length (Nat.le_antisymm hle hge)

/-- Witness for C6: two consistent segments arriving out of order
reassemble the exact sent stream. -/
theorem tcp_reassembly_exact_witness :
    (processSegments [(2, [3, 4]), (0, [1, 2])]).delivered <+: [1, 2, 3, 4] ∧
    ((∀ i, i < ([1, 2, 3, 4] : List Nat).length →
        ∃ seg ∈ [(2, [3, 4]), (0, [1, 2])], seg.1 ≤ i ∧ i < seg.1 + seg.2.length) →
      (processSegments [(2, [3, 4]), (0, [1, 2])]).delivered = [1, 2, 3, 4]) :=
  tcp_reassembly_exact [1, 2, 3, 4] [(2, [3, 4]), (0, [1, 2])] (by decide)

end Gondolin
